import Mathlib

/-!
Verification development for the `claudine` repository.

Strings manipulated by the Python scripts are modelled as `List Char`
(`String.toList` images).  Each definition below embeds one Python function
of the repository; the marker-lifecycle hook scripts, which are described by
the specification but whose source is not part of the repository snapshot,
are modelled from the specification and marked as such in their doc comments.
-/

/-- Characters stripped by Python `str.strip()` / matched by `\s` in a `re`
pattern on `str` (Unicode whitespace, including the ASCII control whitespace,
NEL, NBSP and the Unicode space separators). -/
def isPySpace (c : Char) : Bool :=
  c = ' ' || c = '\t' || c = '\n' || c = '\r' || c = '\x0b' || c = '\x0c' ||
  c = '\x1c' || c = '\x1d' || c = '\x1e' || c = '\x1f' || c = '\x85' ||
  c = '\xa0' || c = '\u1680' || c = '\u2000' || c = '\u2001' || c = '\u2002' ||
  c = '\u2003' || c = '\u2004' || c = '\u2005' || c = '\u2006' || c = '\u2007' ||
  c = '\u2008' || c = '\u2009' || c = '\u200a' || c = '\u2028' || c = '\u2029' ||
  c = '\u202f' || c = '\u205f' || c = '\u3000'

/-- Python `str.strip()` with no argument: drop leading and trailing whitespace. -/
def pyStripWs (l : List Char) : List Char :=
  ((l.dropWhile isPySpace).reverse.dropWhile isPySpace).reverse

/-- Python `str.rstrip(c)` for a single-character argument: drop trailing `c`s. -/
def pyRstrip (c : Char) (l : List Char) : List Char :=
  (l.reverse.dropWhile (· = c)).reverse

/-- Python `str.strip(c)` for a single-character argument: drop leading and
trailing `c`s. -/
def pyStrip (c : Char) (l : List Char) : List Char :=
  ((l.dropWhile (· = c)).reverse.dropWhile (· = c)).reverse

/-- Python `str.removesuffix(suf)`: remove one copy of `suf` if the string
ends with it, otherwise return the string unchanged. -/
def removeSuffix (suf l : List Char) : List Char :=
  if suf.isSuffixOf l then l.take (l.length - suf.length) else l

/-- The segment after the last occurrence of `c` (the whole list when `c` is
absent); this is Python `s.split(c)[-1]`. -/
def lastSeg (c : Char) (l : List Char) : List Char :=
  (l.reverse.takeWhile (· ≠ c)).reverse

/-- `dropExact p l` returns `some r` with `l = p ++ r` when `l` starts with
`p`, and `none` otherwise. -/
def dropExact : List Char → List Char → Option (List Char)
  | [], l => some l
  | _ :: _, [] => none
  | p :: ps, c :: cs => if p = c then dropExact ps cs else none

/-- Does the second list start with the first? -/
def startsList : List Char → List Char → Bool
  | [], _ => true
  | _ :: _, [] => false
  | p :: ps, c :: cs => p = c && startsList ps cs

/-- Plain substring containment (no word boundaries): does `pat` occur
contiguously anywhere in the second list? -/
def containsSub (pat : List Char) : List Char → Bool
  | [] => startsList pat []
  | c :: cs => startsList pat (c :: cs) || containsSub pat cs

/-! ### `scripts/add_skill_repo_submodule.py` -/

/-- Embedding of `repo_name_from_url` (scripts/add_skill_repo_submodule.py):
derive a repo name from a Git URL by taking the last path segment and
stripping one `.git` suffix. -/
def repo_name_from_url (url : List Char) : Option (List Char) :=
  if url = [] ∨ pyStripWs url = [] then none
  else
    let u := pyStripWs url
    let base := removeSuffix ".git".toList (pyRstrip '/' u)
    if base = [] then none
    else
      let l1 := if '/' ∈ base then lastSeg '/' base else base
      let last := if ':' ∈ l1 then lastSeg ':' l1 else l1
      if last = [] ∨ '/' ∈ last ∨ '\\' ∈ last then none
      else some last

/-- The literal head `https://github.com/` of the tree-URL regex. -/
def ghSite : List Char := "https://github.com/".toList

/-- Embedding of `parse_github_tree_url` (scripts/add_skill_repo_submodule.py),
which matches `^(https://github\.com/[^/]+/[^/]+)/tree/([^/]+)/(.+)$` against
`url.strip()`.  Each greedy `[^/]+` is forced to stop at the next `/` (the
regex requires a literal `/` right after it), so it is exactly
`takeWhile (· ≠ '/')`; `.` does not match a newline in Python, and the
stripped string cannot end in a newline, so `(.+)$` matches exactly a
non-empty newline-free remainder. -/
def parse_github_tree_url (url : List Char) :
    Option (List Char × List Char × List Char) :=
  let s := pyStripWs url
  match dropExact ghSite s with
  | none => none
  | some r1 =>
    let owner := r1.takeWhile (· ≠ '/')
    match r1.dropWhile (· ≠ '/') with
    | [] => none
    | _ :: r3 =>
      if owner = [] then none
      else
        let repo := r3.takeWhile (· ≠ '/')
        if repo = [] then none
        else
          match dropExact "/tree/".toList (r3.dropWhile (· ≠ '/')) with
          | none => none
          | some r5 =>
            let branch := r5.takeWhile (· ≠ '/')
            if branch = [] then none
            else
              match r5.dropWhile (· ≠ '/') with
              | [] => none
              | _ :: sub =>
                if sub = [] ∨ '\n' ∈ sub then none
                else some (ghSite ++ owner ++ '/' :: repo, branch, sub)

/-- The shape the claim ascribes to a GitHub tree URL, written from the
claim's words for comparison with `parse_github_tree_url`: the (stripped)
string is `https://github.com/<owner>/<repo>/tree/<branch>/<subpath>` with
non-empty slash-free owner, repo and branch, and non-empty subpath. -/
def ghTreeForm (s owner repo branch sub : List Char) : Prop :=
  owner ≠ [] ∧ repo ≠ [] ∧ branch ≠ [] ∧ sub ≠ [] ∧
  '/' ∉ owner ∧ '/' ∉ repo ∧ '/' ∉ branch ∧
  s = ghSite ++ owner ++ '/' :: (repo ++ "/tree/".toList ++ branch ++ '/' :: sub)

/-! ### `scripts/translate_for_cursor.py` -/

/-- Step 1 of `to_kebab_case`: Python `name.replace("&", "and")`. -/
def replaceAmp (l : List Char) : List Char :=
  l.flatMap (fun c => if c = '&' then "and".toList else [c])

/-- Character class `[_\s]` of the second `to_kebab_case` step. -/
def isUScoreOrSpace (c : Char) : Bool := c = '_' || isPySpace c

/-- Worker for `subRuns`: `inRun` records whether the previous character was
part of a (already replaced) run of characters satisfying `p`. -/
def subRunsGo (p : Char → Bool) (r : Char) : Bool → List Char → List Char
  | _, [] => []
  | inRun, c :: cs =>
    if p c then
      (if inRun then subRunsGo p r true cs else r :: subRunsGo p r true cs)
    else c :: subRunsGo p r false cs

/-- `re.sub` of a one-character-class-plus pattern (`[_\s]+`, `-+`) with a
single replacement character: each maximal run of characters satisfying `p`
becomes one `r`. -/
def subRuns (p : Char → Bool) (r : Char) (l : List Char) : List Char :=
  subRunsGo p r false l

/-- Character class `[a-zA-Z0-9-]` kept by the third `to_kebab_case` step. -/
def isKebabChar (c : Char) : Bool := c.isAlpha || c.isDigit || c = '-'

/-- `re.sub(r"([a-z])([A-Z])", r"\1-\2", ...)`: insert a hyphen between a
lowercase letter and an uppercase letter.  (The Python scan is
non-overlapping, but since an uppercase letter can never start a match,
re-examining it — as this recursion does — yields the same result.) -/
def camelSplit : List Char → List Char
  | [] => []
  | [c] => [c]
  | a :: b :: rest =>
    if a.isLower && b.isUpper then a :: '-' :: camelSplit (b :: rest)
    else a :: camelSplit (b :: rest)

/-- Embedding of `to_kebab_case` (scripts/translate_for_cursor.py). -/
def to_kebab_case (name : List Char) : List Char :=
  let n1 := replaceAmp name
  let n2 := subRuns isUScoreOrSpace '-' n1
  let n3 := n2.filter isKebabChar
  let n4 := camelSplit n3
  let n5 := subRuns (fun c => c = '-') '-' n4
  pyStrip '-' (n5.map Char.toLower)

/-- The characters the claim allows in `to_kebab_case` output: lowercase
ASCII letters, digits and the hyphen. -/
def isKebabLower (c : Char) : Bool := c.isLower || c.isDigit || c = '-'

/-! ### The skill-learning marker lifecycle

Modelled from the spec: the three hook scripts (Recorder, Trigger Detector,
Cleanup) described in spec §3–§4 are not part of the repository snapshot;
the definitions below follow the specification's words.  The marker file is
`Option RawStore` (`none` = file missing); malformed JSON contents are the
constructor `RawStore.malformed`, which every reader tolerates as an empty
entry sequence. -/

/-- A pending-skill entry of the Marker Store (spec §3). -/
structure PendingSkillEntry where
  skill_identifier : String
  leaf_name : String
  timestamp : String
  summary_target_path : String
  created_at : String
deriving DecidableEq, Repr

/-- Modelled from the spec: contents of the marker file — a well-formed
entry sequence or malformed JSON. -/
inductive RawStore where
  | wellFormed : List PendingSkillEntry → RawStore
  | malformed : RawStore
deriving DecidableEq

/-- Tolerant store read (spec §4.1/§7): a missing file or malformed JSON is
treated as the empty entry sequence. -/
def readStore : Option RawStore → List PendingSkillEntry
  | none => []
  | some .malformed => []
  | some (.wellFormed es) => es

/-- Leaf name of a namespaced skill identifier: the text after the last
`:`, or the whole string when `:` is absent (spec §4.1). -/
def leafName (sid : String) : String :=
  String.mk ((sid.data.reverse.takeWhile (· ≠ ':')).reverse)

/-- Modelled from the spec: the summary target path is "derived" from the
leaf name and a freshly generated timestamp; the exact format is not given,
so a simple injective combination is used. -/
def summaryTargetPath (leaf ts : String) : String :=
  leaf ++ "_" ++ ts ++ ".md"

/-- Build a `PendingSkillEntry` from a skill identifier, a session-local
timestamp and an ISO-8601 creation time (spec §3, §4.1). -/
def mkEntry (sid ts created : String) : PendingSkillEntry :=
  { skill_identifier := sid
    leaf_name := leafName sid
    timestamp := ts
    summary_target_path := summaryTargetPath (leafName sid) ts
    created_at := created }

/-- Recorder acknowledgment (spec §4.1): no-op when the event has no skill
identifier, else a human-readable acknowledgment with the pending count. -/
inductive RecorderOut where
  | noop
  | ack (pending : Nat)
deriving DecidableEq, Repr

/-- Modelled from the spec (§4.1): one Recorder invocation.  `event` is the
skill identifier extracted from the input payload (`none` when absent);
`ts`/`created` are the generated timestamps.  Returns the new marker-file
state and the emitted output. -/
def recorder (event : Option String) (ts created : String)
    (file : Option RawStore) : Option RawStore × RecorderOut :=
  match event with
  | none => (file, .noop)
  | some sid =>
    let entries := readStore file
    if entries.any (fun e => e.skill_identifier = sid) then
      (file, .ack entries.length)
    else
      let es := entries ++ [mkEntry sid ts created]
      (some (.wellFormed es), .ack es.length)

/-- The pure effect of one Recorder invocation on the parsed entry
sequence: dedup by skill identifier, else append. -/
def recordStep (es : List PendingSkillEntry) (inv : String × String × String) :
    List PendingSkillEntry :=
  if es.any (fun e => e.skill_identifier = inv.1) then es
  else es ++ [mkEntry inv.1 inv.2.1 inv.2.2]

/-- Run a sequence of Recorder invocations (identifier, timestamp,
created-at triples) starting from a missing marker file. -/
def runRecorder (invs : List (String × String × String)) : Option RawStore :=
  invs.foldl (fun f i => (recorder (some i.1) i.2.1 i.2.2 f).1) none

/-- Distinct elements in first-seen order, written from the claim's words:
`fsdAux seen l` keeps the first occurrence of each element of `l` not
already in `seen`. -/
def fsdAux (seen : List String) : List String → List String
  | [] => []
  | s :: rest =>
    if seen.contains s then fsdAux seen rest
    else s :: fsdAux (s :: seen) rest

/-- The distinct elements of a list, each once, in first-seen order. -/
def firstSeenDedup (l : List String) : List String := fsdAux [] l

/-- The apostrophe character (U+0027). -/
def apos : Char := Char.ofNat 39

/-- Modelled from the spec (§4.2): the fixed list of satisfaction phrases,
all lowercase. -/
def satisfactionPhrases : List (List Char) :=
  ["looks good".toList, "done".toList, "ship it".toList, "lgtm".toList,
   "perfect".toList, "great".toList, "awesome".toList, "all good".toList,
   "we".toList ++ apos :: "re done".toList,
   "that".toList ++ apos :: "s it".toList,
   "finished".toList, "complete".toList, "approved".toList]

/-- Python regex `\w` (ASCII part): letters, digits, underscore. -/
def isWordChar (c : Char) : Bool := c.isAlphanum || c = '_'

/-- Does `pat` occur at the current position, with word boundaries on both
sides?  `prev` is the character before the position (`none` at the start).
Every satisfaction phrase starts and ends with a word character, so `\b`
holds on the left iff `prev` is absent or not a word character, and on the
right iff the first unconsumed character is absent or not a word character. -/
def matchHere (pat : List Char) (prev : Option Char) (rest : List Char) : Bool :=
  (match prev with
   | none => true
   | some c => !isWordChar c) &&
  (match dropExact pat rest with
   | none => false
   | some [] => true
   | some (c :: _) => !isWordChar c)

/-- Scan every position of the message for a word-boundary match of `pat`. -/
def wordMatchAux (pat : List Char) (prev : Option Char) : List Char → Bool
  | [] => matchHere pat prev []
  | c :: cs => matchHere pat prev (c :: cs) || wordMatchAux pat (some c) cs

/-- Case-insensitive whole-word/phrase match of one pattern against a
message (the message is lowercased; the patterns are lowercase). -/
def phraseMatch (pat msg : List Char) : Bool :=
  wordMatchAux pat none (msg.map Char.toLower)

/-- Modelled from the spec (§4.2): does the message contain any
satisfaction phrase as a whole word/phrase, case-insensitively? -/
def detectSatisfaction (msg : List Char) : Bool :=
  satisfactionPhrases.any (fun p => phraseMatch p msg)

/-- One instruction line of the Trigger Detector output: a pending skill's
identifier and its summary target path (spec §4.2). -/
def instructionLine (e : PendingSkillEntry) : String × String :=
  (e.skill_identifier, e.summary_target_path)

/-- Trigger Detector output: no-op, or one instruction line per pending
entry (spec §4.2). -/
inductive TriggerOut where
  | noop
  | instructions (lines : List (String × String))
deriving DecidableEq, Repr

/-- Modelled from the spec (§4.2): one Trigger Detector invocation on the
user's latest message.  Missing store: no-op.  No satisfaction phrase in the
message: no-op, store untouched.  Otherwise parse tolerantly; no entries:
no-op, store untouched; else delete the store file and emit one instruction
line per pending entry. -/
def triggerDetector (msg : List Char) (file : Option RawStore) :
    Option RawStore × TriggerOut :=
  match file with
  | none => (none, .noop)
  | some raw =>
    if detectSatisfaction msg then
      let entries := readStore (some raw)
      if entries.isEmpty then (some raw, .noop)
      else (none, .instructions (entries.map instructionLine))
    else (some raw, .noop)

/-- Cleanup output: empty acknowledgment, or the discarded skill names and
their count (spec §4.3). -/
inductive CleanupOut where
  | emptyAck
  | discarded (skills : List String) (count : Nat)
deriving DecidableEq, Repr

/-- Modelled from the spec (§4.3): session-end Cleanup.  Reads the store
tolerantly, deletes the file unconditionally (missing-file deletion is not
an error), and reports what was discarded. -/
def cleanup (file : Option RawStore) : Option RawStore × CleanupOut :=
  let entries := readStore file
  if entries.isEmpty then (none, .emptyAck)
  else (none, .discarded (entries.map (·.skill_identifier)) entries.length)

/-- Modelled from the spec (§3, §6): JSON documents, restricted to the
constructors the MarkerStore schema uses. -/
inductive JsonVal where
  | str : String → JsonVal
  | arr : List JsonVal → JsonVal
  | obj : List (String × JsonVal) → JsonVal

/-- Serialize one entry as a JSON object (spec §3). -/
def entryToJson (e : PendingSkillEntry) : JsonVal :=
  .obj [("skill_identifier", .str e.skill_identifier),
        ("leaf_name", .str e.leaf_name),
        ("timestamp", .str e.timestamp),
        ("summary_target_path", .str e.summary_target_path),
        ("created_at", .str e.created_at)]

/-- Persist a store: a JSON array of entry objects (spec §3; the legacy
single-object form is never produced on write). -/
def writeStoreJson (es : List PendingSkillEntry) : JsonVal :=
  .arr (es.map entryToJson)

/-- Look up a string field of a JSON object. -/
def getStrField (fields : List (String × JsonVal)) (k : String) : Option String :=
  match fields.find? (fun kv => kv.1 = k) with
  | some (_, .str s) => some s
  | _ => none

/-- Deserialize one entry from a JSON object. -/
def entryFromJson : JsonVal → Option PendingSkillEntry
  | .obj fields =>
    match getStrField fields "skill_identifier", getStrField fields "leaf_name",
          getStrField fields "timestamp",
          getStrField fields "summary_target_path",
          getStrField fields "created_at" with
    | some a, some b, some c, some d, some e =>
      some { skill_identifier := a, leaf_name := b, timestamp := c,
             summary_target_path := d, created_at := e }
    | _, _, _, _, _ => none
  | _ => none

/-- Deserialize a sequence of entry objects; `none` as soon as one element
is not a well-formed entry object. -/
def readEntriesJson : List JsonVal → Option (List PendingSkillEntry)
  | [] => some []
  | j :: js =>
    match entryFromJson j, readEntriesJson js with
    | some e, some es => some (e :: es)
    | _, _ => none

/-- Deserialize a store (spec §3): a JSON array of entry objects, with the
legacy compatibility shim — a single JSON object is a one-element sequence. -/
def readStoreJson : JsonVal → Option (List PendingSkillEntry)
  | .arr js => readEntriesJson js
  | .obj fields => (entryFromJson (.obj fields)).map (fun e => [e])
  | _ => none

/-- The shape C10 ascribes to `to_kebab_case` output: only lowercase ASCII
letters, digits and hyphens, with no leading, trailing or doubled hyphen. -/
def KebabGood (l : List Char) : Prop :=
  (∀ c ∈ l, isKebabLower c = true) ∧
  (∀ x, l.head? = some x → x ≠ '-') ∧
  (∀ x, l.getLast? = some x → x ≠ '-') ∧
  List.Chain' (fun a b => ¬(a = '-' ∧ b = '-')) l

/-! ## Lemmas -/

set_option maxRecDepth 8000
set_option maxHeartbeats 1000000

theorem readStore_recorder (s ts created : String) (f : Option RawStore) :
    readStore ((recorder (some s) ts created f).1) =
      recordStep (readStore f) (s, ts, created) := by
  simp only [recorder, recordStep]
  by_cases h : ((readStore f).any fun e => e.skill_identifier = s) = true
  · rw [if_pos h, if_pos h]
  · rw [if_neg h, if_neg h]; rfl

theorem runRecorder_readStore (invs : List (String × String × String)) :
    ∀ f, readStore (invs.foldl (fun f i => (recorder (some i.1) i.2.1 i.2.2 f).1) f) =
      invs.foldl recordStep (readStore f) := by
  induction invs with
  | nil => intro f; rfl
  | cons i t ih =>
    intro f
    rw [List.foldl_cons, List.foldl_cons, ih, readStore_recorder]

theorem any_eq_contains (es : List PendingSkillEntry) (s : String) :
    es.any (fun e => e.skill_identifier = s) =
      (es.map (·.skill_identifier)).contains s := by
  induction es with
  | nil => rfl
  | cons e t ih =>
    simp only [List.any_cons, List.map_cons, List.contains_cons, ih]
    congr 1
    rw [Bool.eq_iff_iff]
    simp only [decide_eq_true_eq, beq_iff_eq]
    exact eq_comm

theorem fsdAux_congr (l : List String) :
    ∀ seen₁ seen₂, (∀ x, seen₁.contains x = seen₂.contains x) →
      fsdAux seen₁ l = fsdAux seen₂ l := by
  induction l with
  | nil => intros; rfl
  | cons s t ih =>
    intro s1 s2 h
    simp only [fsdAux]
    rw [h s]
    by_cases hc : s2.contains s = true
    · rw [if_pos hc, if_pos hc]
      exact ih s1 s2 h
    · rw [if_neg hc, if_neg hc]
      rw [ih (s :: s1) (s :: s2)
        (fun x => by rw [List.contains_cons, List.contains_cons, h x])]

theorem foldl_recordStep_fsd (invs : List (String × String × String)) :
    ∀ acc, (invs.foldl recordStep acc).map (·.skill_identifier) =
      acc.map (·.skill_identifier) ++
        fsdAux (acc.map (·.skill_identifier)) (invs.map (·.1)) := by
  induction invs with
  | nil => intro acc; simp [fsdAux]
  | cons i t ih =>
    intro acc
    rw [List.foldl_cons, List.map_cons]
    simp only [fsdAux]
    rw [← any_eq_contains]
    by_cases h : (acc.any fun e => e.skill_identifier = i.1) = true
    · rw [if_pos h]
      have hstep : recordStep acc i = acc := by
        unfold recordStep; rw [if_pos h]
      rw [hstep, ih]
    · rw [if_neg h]
      have hstep : recordStep acc i = acc ++ [mkEntry i.1 i.2.1 i.2.2] := by
        unfold recordStep; rw [if_neg h]
      have hseen : ∀ x,
          ((acc ++ [mkEntry i.1 i.2.1 i.2.2]).map (·.skill_identifier)).contains x
            = (i.1 :: acc.map (·.skill_identifier)).contains x := by
        intro x
        simp [List.contains_eq_any_beq, List.any_append, mkEntry, Bool.or_comm]
      rw [hstep, ih, fsdAux_congr _ _ _ hseen]
      simp [mkEntry]

theorem fsdAux_not_seen (l : List String) :
    ∀ seen x, x ∈ fsdAux seen l → seen.contains x = false := by
  induction l with
  | nil => intro seen x h; simp [fsdAux] at h
  | cons s t ih =>
    intro seen x h
    simp only [fsdAux] at h
    by_cases hc : seen.contains s = true
    · rw [if_pos hc] at h
      exact ih seen x h
    · rw [if_neg hc] at h
      rcases List.mem_cons.mp h with rfl | h
      · simp only [Bool.not_eq_true] at hc
        exact hc
      · have h2 := ih (s :: seen) x h
        simp only [List.contains_cons, Bool.or_eq_false_iff] at h2
        exact h2.2

theorem fsdAux_nodup (l : List String) : ∀ seen, (fsdAux seen l).Nodup := by
  induction l with
  | nil => intro seen; simp [fsdAux]
  | cons s t ih =>
    intro seen
    simp only [fsdAux]
    by_cases hc : seen.contains s = true
    · rw [if_pos hc]; exact ih seen
    · rw [if_neg hc]
      refine List.nodup_cons.mpr ⟨fun hmem => ?_, ih (s :: seen)⟩
      have h2 := fsdAux_not_seen t (s :: seen) s hmem
      simp [List.contains_cons] at h2

theorem fsdAux_mem (l : List String) :
    ∀ seen x, x ∈ fsdAux seen l ↔ (x ∈ l ∧ seen.contains x = false) := by
  induction l with
  | nil => intro seen x; simp [fsdAux]
  | cons s t ih =>
    intro seen x
    simp only [fsdAux]
    by_cases hc : seen.contains s = true
    · rw [if_pos hc, ih]
      constructor
      · rintro ⟨hx, hs⟩
        exact ⟨List.mem_cons_of_mem _ hx, hs⟩
      · rintro ⟨hx, hs⟩
        rcases List.mem_cons.mp hx with rfl | hx
        · rw [hc] at hs; cases hs
        · exact ⟨hx, hs⟩
    · rw [if_neg hc]
      have hcf : seen.contains s = false := by
        simpa only [Bool.not_eq_true] using hc
      constructor
      · intro h
        rcases List.mem_cons.mp h with rfl | h
        · exact ⟨List.mem_cons_self _ _, hcf⟩
        · have h2 := (ih (s :: seen) x).mp h
          have h3 := h2.2
          simp only [List.contains_cons, Bool.or_eq_false_iff] at h3
          exact ⟨List.mem_cons_of_mem _ h2.1, h3.2⟩
      · rintro ⟨hx, hs⟩
        rcases List.mem_cons.mp hx with rfl | hx
        · exact List.mem_cons_self _ _
        · by_cases hxs : x = s
          · subst hxs; exact List.mem_cons_self _ _
          · refine List.mem_cons_of_mem _ ((ih (s :: seen) x).mpr ⟨hx, ?_⟩)
            simp only [List.contains_cons, Bool.or_eq_false_iff]
            exact ⟨beq_eq_false_iff_ne.mpr hxs, hs⟩

theorem entry_roundtrip (e : PendingSkillEntry) :
    entryFromJson (entryToJson e) = some e := rfl

theorem readEntriesJson_map (es : List PendingSkillEntry) :
    readEntriesJson (es.map entryToJson) = some es := by
  induction es with
  | nil => rfl
  | cons e t ih => simp [readEntriesJson, entry_roundtrip, ih]

/-! ## Claim theorems -/

/-- C1: for every sequence of Recorder invocations with skill identifiers
S1..Sn (possibly repeating), starting from a missing Marker Store, the
resulting store contains exactly the distinct identifiers of S1..Sn, each
appearing exactly once, in first-seen order. -/
theorem recorder_first_seen_order (invs : List (String × String × String)) :
    (readStore (runRecorder invs)).map (·.skill_identifier)
      = firstSeenDedup (invs.map (·.1)) ∧
    ((readStore (runRecorder invs)).map (·.skill_identifier)).Nodup ∧
    (∀ s, s ∈ (readStore (runRecorder invs)).map (·.skill_identifier) ↔
      s ∈ invs.map (·.1)) := by
  have h0 : readStore (runRecorder invs) = invs.foldl recordStep [] := by
    rw [runRecorder, runRecorder_readStore]
    rfl
  have h1 : (readStore (runRecorder invs)).map (·.skill_identifier)
      = fsdAux [] (invs.map (·.1)) := by
    rw [h0, foldl_recordStep_fsd]
    simp
  refine ⟨h1, ?_, ?_⟩
  · rw [h1]
    exact fsdAux_nodup _ _
  · intro s
    rw [h1, fsdAux_mem]
    simp

/-- C2: for every non-empty Marker Store and message matching a
satisfaction phrase, the Trigger Detector deletes the store file and emits
exactly one instruction line per pending entry; a second immediate
invocation with the same message (the store now being gone) is a no-op. -/
theorem trigger_match_consumes (entries : List PendingSkillEntry)
    (msg : List Char) (h1 : entries ≠ [])
    (h2 : detectSatisfaction msg = true) :
    triggerDetector msg (some (RawStore.wellFormed entries)) =
      (none, TriggerOut.instructions (entries.map instructionLine)) ∧
    (entries.map instructionLine).length = entries.length ∧
    triggerDetector msg none = (none, TriggerOut.noop) := by
  refine ⟨?_, by simp, rfl⟩
  simp only [triggerDetector, h2, if_true, readStore]
  rw [if_neg]
  simp [h1]

/-- Witness for `trigger_match_consumes` at a concrete store and message. -/
theorem trigger_match_consumes_witness :
    ([mkEntry "pdf" "t" "c"] ≠ ([] : List PendingSkillEntry)) ∧
    detectSatisfaction "done".toList = true ∧
    triggerDetector "done".toList
        (some (RawStore.wellFormed [mkEntry "pdf" "t" "c"])) =
      (none, TriggerOut.instructions ([mkEntry "pdf" "t" "c"].map instructionLine)) :=
  ⟨by decide, by decide,
    (trigger_match_consumes [mkEntry "pdf" "t" "c"] "done".toList
      (by decide) (by decide)).1⟩

/-- C3: satisfaction-phrase detection is case-insensitive and word-boundary
aware, not substring matching: "completely" does not match the "complete"
pattern (although "complete" is a substring of it), while "we are done
here" matches the "done" pattern. -/
theorem satisfaction_word_boundary :
    phraseMatch "complete".toList "completely".toList = false ∧
    containsSub "complete".toList "completely".toList = true ∧
    phraseMatch "done".toList "we are done here".toList = true ∧
    detectSatisfaction "completely".toList = false ∧
    detectSatisfaction "we are done here".toList = true ∧
    detectSatisfaction "We are DONE here".toList = true := by
  refine ⟨?_, ?_, ?_, ?_, ?_, ?_⟩ <;> decide

/-- C4: for every store contents (missing, malformed or well-formed) and
every message containing no satisfaction phrase, the Trigger Detector
leaves the Marker Store file exactly as it was. -/
theorem trigger_no_match_keeps_store (msg : List Char)
    (file : Option RawStore) (h : detectSatisfaction msg = false) :
    (triggerDetector msg file).1 = file := by
  cases file with
  | none => rfl
  | some raw => simp [triggerDetector, h]

/-- Witness for `trigger_no_match_keeps_store` at a concrete message and
store. -/
theorem trigger_no_match_keeps_store_witness :
    detectSatisfaction "hello world".toList = false ∧
    (triggerDetector "hello world".toList
        (some (RawStore.wellFormed [mkEntry "pdf" "t" "c"]))).1 =
      some (RawStore.wellFormed [mkEntry "pdf" "t" "c"]) :=
  ⟨by decide,
    trigger_no_match_keeps_store "hello world".toList
      (some (RawStore.wellFormed [mkEntry "pdf" "t" "c"])) (by decide)⟩

/-- C5: Cleanup always deletes the Marker Store file (a missing file is
fine and no file remains afterwards); with one or more pending entries it
emits the discarded skill names and their count, otherwise an empty
acknowledgment. -/
theorem cleanup_spec (file : Option RawStore) :
    (cleanup file).1 = none ∧
    (readStore file = [] → (cleanup file).2 = CleanupOut.emptyAck) ∧
    (readStore file ≠ [] →
      (cleanup file).2 = CleanupOut.discarded
        ((readStore file).map (·.skill_identifier)) (readStore file).length) := by
  cases hre : readStore file with
  | nil =>
    exact ⟨by simp [cleanup, hre], fun _ => by simp [cleanup, hre],
      fun h => absurd rfl h⟩
  | cons a t =>
    refine ⟨by simp [cleanup, hre], fun h => absurd h (List.cons_ne_nil a t),
      fun _ => ?_⟩
    simp [cleanup, hre]

/-- Witness for `cleanup_spec` at a concrete two-entry store. -/
theorem cleanup_spec_witness :
    readStore (some (RawStore.wellFormed
        [mkEntry "pdf" "t" "c", mkEntry "csv" "t" "c"])) ≠ [] ∧
    (cleanup (some (RawStore.wellFormed
        [mkEntry "pdf" "t" "c", mkEntry "csv" "t" "c"]))).2 =
      CleanupOut.discarded ["pdf", "csv"] 2 := by
  refine ⟨by decide, ?_⟩
  have h := (cleanup_spec (some (RawStore.wellFormed
    [mkEntry "pdf" "t" "c", mkEntry "csv" "t" "c"]))).2.2 (by decide)
  rw [h]
  decide

/-- C6: for every event payload lacking a skill identifier, the Recorder
neither creates nor modifies the Marker Store file and reports a plain
no-op (no error). -/
theorem recorder_no_identifier (ts created : String) (file : Option RawStore) :
    recorder none ts created file = (file, RecorderOut.noop) := rfl

/-- C7: persisting a store of N entries and reading it back yields the same
N entries in the same order; additionally, the legacy single-object form is
read as a one-element sequence. -/
theorem store_json_roundtrip (es : List PendingSkillEntry) :
    readStoreJson (writeStoreJson es) = some es ∧
    (∀ e : PendingSkillEntry, readStoreJson (entryToJson e) = some [e]) := by
  constructor
  · rw [writeStoreJson]
    show readEntriesJson (es.map entryToJson) = some es
    exact readEntriesJson_map es
  · intro e
    show (entryFromJson (entryToJson e)).map (fun e => [e]) = some [e]
    rw [entry_roundtrip]
    rfl

/-- C8 counterexample: the claim says a trailing `.git` suffix never
appears in the result, but only one `.git` suffix is stripped: on
`repo.git.git` the function returns `repo.git`, which ends in `.git`. -/
theorem repo_name_trailing_git_cex :
    repo_name_from_url "repo.git.git".toList = some "repo.git".toList ∧
    "repo.git".toList = "repo".toList ++ ".git".toList :=
  ⟨by decide, by decide⟩

/-- C8 (amended): `repo_name_from_url` returns either `none` or a non-empty
string containing neither `/` nor `\`; empty, whitespace-only and
`.git`-only inputs return `none`.  (One trailing `.git` suffix is
stripped; when the URL ends in repeated `.git` suffixes only the last one
is removed, so the result can still end in `.git`.) -/
theorem repo_name_from_url_spec (url : List Char) :
    (∀ s, repo_name_from_url url = some s → s ≠ [] ∧ '/' ∉ s ∧ '\\' ∉ s) ∧
    repo_name_from_url [] = none ∧
    ((∀ c ∈ url, isPySpace c = true) → repo_name_from_url url = none) ∧
    repo_name_from_url ".git".toList = none := by
  refine ⟨?_, by decide, ?_, by decide⟩
  · intro s h
    simp only [repo_name_from_url] at h
    set base := removeSuffix ".git".toList (pyRstrip '/' (pyStripWs url)) with hbase
    set l1 := if '/' ∈ base then lastSeg '/' base else base with hl1
    set last := if ':' ∈ l1 then lastSeg ':' l1 else l1 with hlast
    split at h
    · exact Option.noConfusion h
    · split at h
      · exact Option.noConfusion h
      · split at h
        · exact Option.noConfusion h
        · rename_i hguard
          injection h with h'
          subst h'
          push_neg at hguard
          exact ⟨hguard.1, hguard.2.1, hguard.2.2⟩
  · intro hws
    have h1 : url.dropWhile isPySpace = [] :=
      List.dropWhile_eq_nil_iff.mpr (fun x hx => hws x hx)
    have hstrip : pyStripWs url = [] := by
      unfold pyStripWs
      rw [h1]
      rfl
    unfold repo_name_from_url
    rw [if_pos (Or.inr hstrip)]

/-- Witness for `repo_name_from_url_spec` at a whitespace-only input. -/
theorem repo_name_from_url_spec_witness :
    (∀ c ∈ "   ".toList, isPySpace c = true) ∧
    repo_name_from_url "   ".toList = none :=
  ⟨by decide, (repo_name_from_url_spec "   ".toList).2.2.1 (by decide)⟩

theorem dropExact_eq_some (p : List Char) :
    ∀ l r, dropExact p l = some r ↔ l = p ++ r := by
  induction p with
  | nil =>
    intro l r
    simp [dropExact]
  | cons a ps ih =>
    intro l r
    cases l with
    | nil => simp [dropExact]
    | cons c cs =>
      by_cases hac : a = c
      · subst hac
        simp [dropExact, ih]
      · simp [dropExact, hac, Ne.symm hac]

theorem seg_split (q : Char) :
    ∀ (a b : List Char), q ∉ a →
      (a ++ q :: b).takeWhile (· ≠ q) = a ∧
      (a ++ q :: b).dropWhile (· ≠ q) = q :: b := by
  intro a
  induction a with
  | nil =>
    intro b _
    simp [List.takeWhile_cons, List.dropWhile_cons]
  | cons x xs ih =>
    intro b hq
    have hx : x ≠ q := fun hxq => hq (hxq ▸ List.mem_cons_self x xs)
    have hxs : q ∉ xs := fun hmem => hq (List.mem_cons_of_mem x hmem)
    have h := ih b hxs
    simp only [List.cons_append, List.takeWhile_cons, List.dropWhile_cons,
      ne_eq, decide_not] at h ⊢
    simp [hx, h.1, h.2]

theorem dropWhile_head_not (p : Char → Bool) (l : List Char) (x : Char)
    (t : List Char) (h : l.dropWhile p = x :: t) : p x = false := by
  have h2 := List.head?_dropWhile_not p l
  rw [h] at h2
  exact h2

theorem parse_sound (url base branch sub : List Char)
    (h : parse_github_tree_url url = some (base, branch, sub)) :
    ∃ owner repo, base = ghSite ++ owner ++ '/' :: repo ∧
      ghTreeForm (pyStripWs url) owner repo branch sub ∧ '\n' ∉ sub := by
  simp only [parse_github_tree_url] at h
  split at h
  · exact Option.noConfusion h
  · rename_i r1 hd
    split at h
    · exact Option.noConfusion h
    · rename_i c r3 hw
      split at h
      · exact Option.noConfusion h
      · rename_i ho
        split at h
        · exact Option.noConfusion h
        · rename_i hr
          split at h
          · exact Option.noConfusion h
          · rename_i r5 he
            split at h
            · exact Option.noConfusion h
            · rename_i hb
              split at h
              · exact Option.noConfusion h
              · rename_i c2 sub' hw5
                split at h
                · exact Option.noConfusion h
                · rename_i hg
                  injection h with h'
                  injection h' with hbase hrest
                  injection hrest with hbr hsub
                  subst hbase
                  subst hbr
                  subst hsub
                  have hc : c = '/' := by
                    simpa using dropWhile_head_not _ _ _ _ hw
                  have hc2 : c2 = '/' := by
                    simpa using dropWhile_head_not _ _ _ _ hw5
                  subst hc
                  subst hc2
                  push_neg at hg
                  have hmem : ∀ (m : List Char), '/' ∉ m.takeWhile (· ≠ '/') := by
                    intro m hmem2
                    have h3 := List.mem_takeWhile_imp hmem2
                    simp at h3
                  set O := r1.takeWhile (· ≠ '/') with hO
                  set R := r3.takeWhile (· ≠ '/') with hR
                  set B := r5.takeWhile (· ≠ '/') with hB
                  have hr1 : r1 = O ++ '/' :: r3 := by
                    rw [hO]
                    conv_lhs => rw [← List.takeWhile_append_dropWhile (fun x => decide (x ≠ '/')) r1]
                    rw [hw]
                  have hr3 : r3 = R ++ ("/tree/".toList ++ r5) := by
                    rw [hR]
                    conv_lhs => rw [← List.takeWhile_append_dropWhile (fun x => decide (x ≠ '/')) r3]
                    rw [(dropExact_eq_some _ _ _).mp he]
                  have hr5 : r5 = B ++ '/' :: sub' := by
                    rw [hB]
                    conv_lhs => rw [← List.takeWhile_append_dropWhile (fun x => decide (x ≠ '/')) r5]
                    rw [hw5]
                  refine ⟨O, R, rfl, ⟨ho, hr, hb, hg.1, hmem r1, hmem r3, hmem r5, ?_⟩, hg.2⟩
                  rw [(dropExact_eq_some _ _ _).mp hd, hr1, hr3, hr5]
                  simp [List.append_assoc]

theorem parse_complete (url o r b p : List Char)
    (hf : ghTreeForm (pyStripWs url) o r b p) (hnl : '\n' ∉ p) :
    parse_github_tree_url url = some (ghSite ++ o ++ '/' :: r, b, p) := by
  obtain ⟨ho, hr, hb, hp, hso, hsr, hsb, hs⟩ := hf
  have htree : "/tree/".toList = '/' :: "tree/".toList := rfl
  have hs' : pyStripWs url =
      ghSite ++ (o ++ '/' :: (r ++ '/' :: ("tree/".toList ++ (b ++ '/' :: p)))) := by
    rw [hs]
    conv_lhs => rw [htree]
    simp [List.append_assoc]
  simp only [parse_github_tree_url]
  rw [hs', (dropExact_eq_some ghSite _ _).mpr rfl]
  dsimp only
  obtain ⟨ht1, hd1⟩ := seg_split '/' o (r ++ '/' :: ("tree/".toList ++ (b ++ '/' :: p))) hso
  rw [hd1]
  dsimp only
  rw [ht1, if_neg ho]
  obtain ⟨ht2, hd2⟩ := seg_split '/' r ("tree/".toList ++ (b ++ '/' :: p)) hsr
  rw [ht2, if_neg hr, hd2]
  have hde : dropExact "/tree/".toList ('/' :: ("tree/".toList ++ (b ++ '/' :: p)))
      = some (b ++ '/' :: p) := by
    apply (dropExact_eq_some _ _ _).mpr
    rw [htree]
    simp
  rw [hde]
  dsimp only
  obtain ⟨ht3, hd3⟩ := seg_split '/' b p hsb
  rw [ht3, if_neg hb, hd3]
  dsimp only
  rw [if_neg (not_or.mpr ⟨hp, hnl⟩)]

/-- C9 counterexample: the claim promises a parse for every well-shaped
tree URL, but Python's `.` does not match a newline: the input below has
the claimed form (subpath `d\ne`), yet the function returns `none`. -/
theorem parse_github_tree_url_newline_cex :
    ghTreeForm (pyStripWs "https://github.com/a/b/tree/c/d\ne".toList)
      "a".toList "b".toList "c".toList "d\ne".toList ∧
    parse_github_tree_url "https://github.com/a/b/tree/c/d\ne".toList = none := by
  constructor
  · refine ⟨by decide, by decide, by decide, by decide, by decide, by decide,
      by decide, by decide⟩
  · decide

/-- C9 (amended): `parse_github_tree_url` returns a triple exactly for
inputs whose trimmed form is `https://github.com/<owner>/<repo>/tree/
<branch>/<subpath>` with non-empty slash-free owner, repo and branch and a
non-empty **newline-free** subpath; the returned triple reconstructs the
trimmed input, and ssh URLs, plain repo URLs, `/tree/<branch>` URLs
without a subpath, and the empty string all yield `none`. -/
theorem parse_github_tree_url_spec (url : List Char) :
    ((∃ o r b p, ghTreeForm (pyStripWs url) o r b p ∧ '\n' ∉ p) ↔
      ∃ t, parse_github_tree_url url = some t) ∧
    (∀ base branch sub, parse_github_tree_url url = some (base, branch, sub) →
      base ++ "/tree/".toList ++ branch ++ '/' :: sub = pyStripWs url) ∧
    parse_github_tree_url "git@github.com:org/repo.git".toList = none ∧
    parse_github_tree_url "https://github.com/org/repo".toList = none ∧
    parse_github_tree_url "https://github.com/org/repo/tree/main".toList = none ∧
    parse_github_tree_url [] = none := by
  refine ⟨⟨?_, ?_⟩, ?_, by decide, by decide, by decide, by decide⟩
  · rintro ⟨o, r, b, p, hf, hnl⟩
    exact ⟨_, parse_complete url o r b p hf hnl⟩
  · rintro ⟨⟨base, branch, sub⟩, ht⟩
    obtain ⟨o, r, _, hform, hnl⟩ := parse_sound url base branch sub ht
    exact ⟨o, r, branch, sub, hform, hnl⟩
  · intro base branch sub ht
    obtain ⟨o, r, hbase, hform, hnl⟩ := parse_sound url base branch sub ht
    rw [hbase, hform.2.2.2.2.2.2.2]
    simp [List.append_assoc]

/-- Witness for `parse_github_tree_url_spec`: the reconstruction property
at a concrete tree URL. -/
theorem parse_github_tree_url_spec_witness :
    parse_github_tree_url "https://github.com/org/repo/tree/main/some/path".toList =
      some ("https://github.com/org/repo".toList, "main".toList, "some/path".toList) ∧
    "https://github.com/org/repo".toList ++ "/tree/".toList ++ "main".toList
        ++ '/' :: "some/path".toList =
      pyStripWs "https://github.com/org/repo/tree/main/some/path".toList :=
  ⟨by decide,
    (parse_github_tree_url_spec "https://github.com/org/repo/tree/main/some/path".toList).2.1
      "https://github.com/org/repo".toList "main".toList "some/path".toList (by decide)⟩

theorem isLower_iff (c : Char) : c.isLower = true ↔ 97 ≤ c.toNat ∧ c.toNat ≤ 122 := by
  simp [Char.isLower, UInt32.le_def, BitVec.le_def, Char.toNat, UInt32.toNat]

theorem isUpper_iff (c : Char) : c.isUpper = true ↔ 65 ≤ c.toNat ∧ c.toNat ≤ 90 := by
  simp [Char.isUpper, UInt32.le_def, BitVec.le_def, Char.toNat, UInt32.toNat]

theorem isDigit_iff (c : Char) : c.isDigit = true ↔ 48 ≤ c.toNat ∧ c.toNat ≤ 57 := by
  simp [Char.isDigit, UInt32.le_def, BitVec.le_def, Char.toNat, UInt32.toNat]

theorem eq_char_iff_toNat (c d : Char) : c = d ↔ c.toNat = d.toNat := by
  constructor
  · intro h; rw [h]
  · intro h
    exact Char.eq_of_val_eq (UInt32.toNat.inj h)

theorem char_toNat_ofNat (n : Nat) (h : n.isValidChar) : (Char.ofNat n).toNat = n := by
  simp [Char.ofNat, h, Char.ofNatAux, Char.toNat, UInt32.toNat]

theorem kebabLower_toNat (c : Char) (h : isKebabLower c = true) :
    (97 ≤ c.toNat ∧ c.toNat ≤ 122) ∨ (48 ≤ c.toNat ∧ c.toNat ≤ 57) ∨ c.toNat = 45 := by
  simp only [isKebabLower, Bool.or_eq_true, decide_eq_true_eq] at h
  rcases h with (h | h) | h
  · exact Or.inl ((isLower_iff c).mp h)
  · exact Or.inr (Or.inl ((isDigit_iff c).mp h))
  · subst h; right; right; rfl

theorem toLower_eq_self_of_not_upper (c : Char)
    (h : ¬(65 ≤ c.toNat ∧ c.toNat ≤ 90)) : c.toLower = c := by
  simp only [Char.toLower]
  rw [if_neg h]

theorem toLower_of_upper (c : Char) (h : 65 ≤ c.toNat ∧ c.toNat ≤ 90) :
    c.toLower = Char.ofNat (c.toNat + 32) := by
  simp only [Char.toLower]
  rw [if_pos h]

theorem kebabLower_toLower_fix (c : Char) (h : isKebabLower c = true) :
    c.toLower = c := by
  apply toLower_eq_self_of_not_upper
  rcases kebabLower_toNat c h with h1 | h1 | h1 <;> omega

theorem kebabLower_not_upper (c : Char) (h : isKebabLower c = true) :
    c.isUpper = false := by
  cases hu : c.isUpper with
  | false => rfl
  | true =>
    exfalso
    have h1 := (isUpper_iff c).mp hu
    rcases kebabLower_toNat c h with h2 | h2 | h2 <;> omega

theorem kebabChar_toLower_kebabLower (c : Char) (h : isKebabChar c = true) :
    isKebabLower c.toLower = true := by
  simp only [isKebabChar, Char.isAlpha, Bool.or_eq_true] at h
  rcases h with ((h | h) | h) | h
  · have hn := (isUpper_iff c).mp h
    have hval : (c.toNat + 32).isValidChar := Or.inl (by omega)
    rw [toLower_of_upper c hn]
    simp only [isKebabLower, Bool.or_eq_true]
    left
    rw [isLower_iff, char_toNat_ofNat _ hval]
    omega
  · have hl : isKebabLower c = true := by
      simp [isKebabLower, h]
    rw [kebabLower_toLower_fix c hl]
    exact hl
  · have hl : isKebabLower c = true := by
      simp [isKebabLower, h]
    rw [kebabLower_toLower_fix c hl]
    exact hl
  · have hl : isKebabLower c = true := by
      simp [isKebabLower, h]
    rw [kebabLower_toLower_fix c hl]
    exact hl

theorem toLower_eq_dash_iff (c : Char) : c.toLower = '-' ↔ c = '-' := by
  constructor
  · intro h
    by_cases hcond : 65 ≤ c.toNat ∧ c.toNat ≤ 90
    · exfalso
      have hval : (c.toNat + 32).isValidChar := Or.inl (by omega)
      rw [toLower_of_upper c hcond] at h
      have h2 := (eq_char_iff_toNat _ _).mp h
      rw [char_toNat_ofNat _ hval] at h2
      simp only [show ('-').toNat = 45 from rfl] at h2
      omega
    · rwa [toLower_eq_self_of_not_upper c hcond] at h
  · intro h
    subst h
    decide

theorem kebabLower_not_amp (c : Char) (h : isKebabLower c = true) : c ≠ '&' := by
  intro hc
  subst hc
  exact absurd h (by decide)

theorem kebabLower_kebabChar (c : Char) (h : isKebabLower c = true) :
    isKebabChar c = true := by
  simp only [isKebabLower, Bool.or_eq_true] at h
  simp only [isKebabChar, Char.isAlpha, Bool.or_eq_true]
  rcases h with (h | h) | h
  · exact Or.inl (Or.inl (Or.inr h))
  · exact Or.inl (Or.inr h)
  · exact Or.inr h

theorem kebabLower_not_uspace (c : Char) (h : isKebabLower c = true) :
    isUScoreOrSpace c = false := by
  cases hv : isUScoreOrSpace c with
  | false => rfl
  | true =>
    exfalso
    simp only [isUScoreOrSpace, isPySpace, Bool.or_eq_true, decide_eq_true_eq] at hv
    rcases hv with h1 | ((((((((((((((((((((((((((((h1 | h1) | h1) | h1) | h1) | h1) | h1) | h1) | h1) | h1) | h1) | h1) | h1) | h1) | h1) | h1) | h1) | h1) | h1) | h1) | h1) | h1) | h1) | h1) | h1) | h1) | h1) | h1) | h1) <;>
      (subst h1; exact absurd h (by decide))

theorem subRunsGo_cons_pos_true (p : Char → Bool) (r d : Char) (cs : List Char)
    (hp : p d = true) :
    subRunsGo p r true (d :: cs) = subRunsGo p r true cs := by
  simp [subRunsGo, hp]

theorem subRunsGo_cons_pos_false (p : Char → Bool) (r d : Char) (cs : List Char)
    (hp : p d = true) :
    subRunsGo p r false (d :: cs) = r :: subRunsGo p r true cs := by
  simp [subRunsGo, hp]

theorem subRunsGo_cons_neg (p : Char → Bool) (r : Char) (b : Bool) (d : Char)
    (cs : List Char) (hp : p d = false) :
    subRunsGo p r b (d :: cs) = d :: subRunsGo p r false cs := by
  simp [subRunsGo, hp]

theorem subRunsGo_mem (p : Char → Bool) (r : Char) :
    ∀ (l : List Char) (b : Bool) (c : Char), c ∈ subRunsGo p r b l → c = r ∨ c ∈ l := by
  intro l
  induction l with
  | nil => intro b c h; cases h
  | cons d cs ih =>
    intro b c h
    by_cases hp : p d = true
    · cases b with
      | true =>
        rw [subRunsGo_cons_pos_true p r d cs hp] at h
        rcases ih true c h with h1 | h1
        · exact Or.inl h1
        · exact Or.inr (List.mem_cons_of_mem _ h1)
      | false =>
        rw [subRunsGo_cons_pos_false p r d cs hp] at h
        rcases List.mem_cons.mp h with rfl | h1
        · exact Or.inl rfl
        · rcases ih true c h1 with h2 | h2
          · exact Or.inl h2
          · exact Or.inr (List.mem_cons_of_mem _ h2)
    · rw [subRunsGo_cons_neg p r b d cs (Bool.of_not_eq_true hp)] at h
      rcases List.mem_cons.mp h with rfl | h1
      · exact Or.inr (List.mem_cons_self _ _)
      · rcases ih false c h1 with h2 | h2
        · exact Or.inl h2
        · exact Or.inr (List.mem_cons_of_mem _ h2)

theorem subRunsGo_true_head (p : Char → Bool) (r : Char) :
    ∀ (l : List Char) (x : Char), (subRunsGo p r true l).head? = some x → p x = false := by
  intro l
  induction l with
  | nil => intro x h; cases h
  | cons d cs ih =>
    intro x h
    by_cases hp : p d = true
    · rw [subRunsGo_cons_pos_true p r d cs hp] at h
      exact ih x h
    · rw [subRunsGo_cons_neg p r true d cs (Bool.of_not_eq_true hp)] at h
      injection h with h'
      subst h'
      exact Bool.of_not_eq_true hp

theorem subRunsGo_flag_indep (p : Char → Bool) (r : Char) (l : List Char)
    (h : ∀ y, l.head? = some y → p y = false) :
    subRunsGo p r true l = subRunsGo p r false l := by
  cases l with
  | nil => rfl
  | cons d cs =>
    have hd := h d rfl
    rw [subRunsGo_cons_neg p r true d cs hd, subRunsGo_cons_neg p r false d cs hd]

theorem subRunsGo_id (p : Char → Bool) (r : Char) :
    ∀ (l : List Char), (∀ c ∈ l, p c = false) → ∀ b, subRunsGo p r b l = l := by
  intro l
  induction l with
  | nil => intro _ b; rfl
  | cons d cs ih =>
    intro h b
    have hd : p d = false := h d (List.mem_cons_self _ _)
    rw [subRunsGo_cons_neg p r b d cs hd,
      ih (fun c hc => h c (List.mem_cons_of_mem _ hc)) false]

theorem subRunsGo_dash_chain :
    ∀ (l : List Char) (b : Bool),
      List.Chain' (fun a b => ¬(a = '-' ∧ b = '-'))
        (subRunsGo (fun c => c = '-') '-' b l) := by
  intro l
  induction l with
  | nil => intro b; exact List.chain'_nil
  | cons d cs ih =>
    intro b
    by_cases hd : d = '-'
    · have hp : (fun c => decide (c = '-')) d = true := by simp [hd]
      cases b with
      | true =>
        rw [subRunsGo_cons_pos_true _ _ _ _ hp]
        exact ih true
      | false =>
        rw [subRunsGo_cons_pos_false _ _ _ _ hp]
        rw [List.chain'_cons']
        refine ⟨?_, ih true⟩
        intro y hy
        have hy' := subRunsGo_true_head _ _ cs y (Option.mem_def.mp hy)
        intro hcon
        rw [hcon.2] at hy'
        simp at hy'
    · have hp : (fun c => decide (c = '-')) d = false := by simp [hd]
      rw [subRunsGo_cons_neg _ _ _ _ _ hp]
      rw [List.chain'_cons']
      exact ⟨fun y _ hcon => hd hcon.1, ih false⟩

theorem subRunsGo_dash_id (l : List Char)
    (h : List.Chain' (fun a b => ¬(a = '-' ∧ b = '-')) l) :
    subRunsGo (fun c => c = '-') '-' false l = l := by
  induction l with
  | nil => rfl
  | cons d cs ih =>
    have htail : List.Chain' (fun a b => ¬(a = '-' ∧ b = '-')) cs :=
      (List.chain'_cons'.mp h).2
    by_cases hd : d = '-'
    · have hp : (fun c => decide (c = '-')) d = true := by simp [hd]
      rw [subRunsGo_cons_pos_false _ _ _ _ hp]
      have hhead : ∀ y, cs.head? = some y → (fun c => decide (c = '-')) y = false := by
        intro y hy
        have := (List.chain'_cons'.mp h).1 y (Option.mem_def.mpr hy)
        subst hd
        simp only [decide_eq_false_iff_not]
        intro hy2
        exact this ⟨rfl, hy2⟩
      rw [subRunsGo_flag_indep _ _ cs hhead, ih htail, hd]
    · have hp : (fun c => decide (c = '-')) d = false := by simp [hd]
      rw [subRunsGo_cons_neg _ _ _ _ _ hp, ih htail]

theorem camelSplit_cons₂ (a b : Char) (rest : List Char) :
    camelSplit (a :: b :: rest) =
      if a.isLower && b.isUpper then a :: '-' :: camelSplit (b :: rest)
      else a :: camelSplit (b :: rest) := rfl

theorem camelSplit_mem : ∀ (l : List Char) (c : Char),
    c ∈ camelSplit l → c = '-' ∨ c ∈ l := by
  intro l
  induction l with
  | nil => intro c h; cases h
  | cons a t ih =>
    intro c h
    cases t with
    | nil =>
      rcases List.mem_singleton.mp h with rfl
      exact Or.inr (List.mem_singleton.mpr rfl)
    | cons b rest =>
      rw [camelSplit_cons₂] at h
      by_cases hcond : (a.isLower && b.isUpper) = true
      · rw [if_pos hcond] at h
        rcases List.mem_cons.mp h with rfl | h1
        · exact Or.inr (List.mem_cons_self _ _)
        · rcases List.mem_cons.mp h1 with rfl | h2
          · exact Or.inl rfl
          · rcases ih c h2 with h3 | h3
            · exact Or.inl h3
            · exact Or.inr (List.mem_cons_of_mem _ h3)
      · rw [if_neg hcond] at h
        rcases List.mem_cons.mp h with rfl | h1
        · exact Or.inr (List.mem_cons_self _ _)
        · rcases ih c h1 with h3 | h3
          · exact Or.inl h3
          · exact Or.inr (List.mem_cons_of_mem _ h3)

theorem camelSplit_id : ∀ (l : List Char),
    (∀ c ∈ l, c.isUpper = false) → camelSplit l = l := by
  intro l
  induction l with
  | nil => intro _; rfl
  | cons a t ih =>
    intro h
    cases t with
    | nil => rfl
    | cons b rest =>
      have hb : b.isUpper = false := h b (List.mem_cons_of_mem _ (List.mem_cons_self _ _))
      rw [camelSplit_cons₂, if_neg (by simp [hb])]
      rw [ih (fun c hc => h c (List.mem_cons_of_mem _ hc))]

theorem replaceAmp_cons (c : Char) (cs : List Char) :
    replaceAmp (c :: cs) =
      (if c = '&' then "and".toList else [c]) ++ replaceAmp cs := by
  simp [replaceAmp]

theorem replaceAmp_id : ∀ (l : List Char),
    (∀ c ∈ l, c ≠ '&') → replaceAmp l = l := by
  intro l
  induction l with
  | nil => intro _; rfl
  | cons c cs ih =>
    intro h
    rw [replaceAmp_cons, if_neg (h c (List.mem_cons_self _ _)),
      ih (fun x hx => h x (List.mem_cons_of_mem _ hx))]
    rfl

theorem dropWhile_head?_false (p : Char → Bool) (l : List Char) (x : Char)
    (h : (l.dropWhile p).head? = some x) : p x = false := by
  have h2 := List.head?_dropWhile_not p l
  rw [h] at h2
  exact h2

theorem dropWhile_id_of_head (p : Char → Bool) (l : List Char)
    (h : ∀ x, l.head? = some x → p x = false) : l.dropWhile p = l := by
  cases l with
  | nil => rfl
  | cons d cs =>
    rw [List.dropWhile_cons, if_neg (by simp [h d rfl])]

theorem pyStrip_mem (q c : Char) (l : List Char) (h : c ∈ pyStrip q l) : c ∈ l := by
  unfold pyStrip at h
  rw [List.mem_reverse] at h
  have h2 := ((List.dropWhile_suffix _).sublist.subset) h
  rw [List.mem_reverse] at h2
  exact ((List.dropWhile_suffix _).sublist.subset) h2

theorem pyStrip_getLast?_ne (q : Char) (l : List Char) (x : Char)
    (h : (pyStrip q l).getLast? = some x) : ¬(x = q) := by
  unfold pyStrip at h
  rw [List.getLast?_reverse] at h
  have h2 := dropWhile_head?_false _ _ _ h
  simpa using h2

theorem pyStrip_head?_ne (q : Char) (l : List Char) (x : Char)
    (h : (pyStrip q l).head? = some x) : ¬(x = q) := by
  unfold pyStrip at h
  rw [List.head?_reverse] at h
  have hsuf : ((l.dropWhile (· = q)).reverse.dropWhile (· = q)) <:+
      (l.dropWhile (· = q)).reverse := List.dropWhile_suffix _
  obtain ⟨t, hz⟩ := hsuf
  have hY : (l.dropWhile (· = q)).reverse.dropWhile (· = q) ≠ [] := by
    intro he
    rw [he] at h
    exact Option.noConfusion h
  have hZ : ((l.dropWhile (· = q)).reverse).getLast? = some x := by
    rw [← hz, List.getLast?_append, h]
    rfl
  rw [List.getLast?_reverse] at hZ
  have h2 := dropWhile_head?_false _ _ _ hZ
  simpa using h2

theorem pyStrip_chain (l : List Char)
    (h : List.Chain' (fun a b => ¬(a = '-' ∧ b = '-')) l) :
    List.Chain' (fun a b => ¬(a = '-' ∧ b = '-')) (pyStrip '-' l) := by
  have hrev : ∀ (m : List Char),
      List.Chain' (fun a b => ¬(a = '-' ∧ b = '-')) m →
      List.Chain' (fun a b => ¬(a = '-' ∧ b = '-')) m.reverse := by
    intro m hm
    rw [List.chain'_reverse]
    exact hm.imp (fun a b hab hcon => hab ⟨hcon.2, hcon.1⟩)
  unfold pyStrip
  exact hrev _ ((hrev _ (h.suffix (List.dropWhile_suffix _))).suffix
    (List.dropWhile_suffix _))

theorem pyStrip_id (l : List Char)
    (hh : ∀ x, l.head? = some x → ¬(x = '-'))
    (hl : ∀ x, l.getLast? = some x → ¬(x = '-')) : pyStrip '-' l = l := by
  unfold pyStrip
  have h1 : l.dropWhile (· = '-') = l :=
    dropWhile_id_of_head _ _ (fun x hx => by simp [hh x hx])
  rw [h1]
  have h2 : l.reverse.dropWhile (· = '-') = l.reverse :=
    dropWhile_id_of_head _ _ (fun x hx => by
      rw [List.head?_reverse] at hx
      simp [hl x hx])
  rw [h2, List.reverse_reverse]

theorem map_toLower_fix (m : List Char)
    (hm : ∀ c ∈ m, isKebabLower c = true) : m.map Char.toLower = m := by
  induction m with
  | nil => rfl
  | cons c cs ih =>
    rw [List.map_cons, kebabLower_toLower_fix c (hm c (List.mem_cons_self _ _)),
      ih (fun x hx => hm x (List.mem_cons_of_mem _ hx))]

theorem to_kebab_good (s : List Char) : KebabGood (to_kebab_case s) := by
  refine ⟨?_, ?_, ?_, ?_⟩
  · intro c hc
    simp only [to_kebab_case] at hc
    have hc1 := pyStrip_mem _ _ _ hc
    rcases List.mem_map.mp hc1 with ⟨d, hd, rfl⟩
    rcases subRunsGo_mem _ _ _ _ _ hd with rfl | hd2
    · decide
    · rcases camelSplit_mem _ _ hd2 with rfl | hd3
      · decide
      · exact kebabChar_toLower_kebabLower d (List.mem_filter.mp hd3).2
  · intro x hx
    simp only [to_kebab_case] at hx
    intro hxd
    exact pyStrip_head?_ne '-' _ x hx hxd
  · intro x hx
    simp only [to_kebab_case] at hx
    intro hxd
    exact pyStrip_getLast?_ne '-' _ x hx hxd
  · show List.Chain' (fun a b => ¬(a = '-' ∧ b = '-'))
      (pyStrip '-' ((subRunsGo (fun c => c = '-') '-' false
        (camelSplit ((subRunsGo isUScoreOrSpace '-' false
          (replaceAmp s)).filter isKebabChar))).map Char.toLower))
    apply pyStrip_chain
    exact List.chain'_map_of_chain' Char.toLower
      (fun a b hab hcon => hab ⟨(toLower_eq_dash_iff a).mp hcon.1,
        (toLower_eq_dash_iff b).mp hcon.2⟩)
      (subRunsGo_dash_chain _ false)

theorem kebab_fixed (l : List Char) (h : KebabGood l) : to_kebab_case l = l := by
  obtain ⟨hchars, hhead, hlast, hchain⟩ := h
  show pyStrip '-' ((subRunsGo (fun c => c = '-') '-' false
    (camelSplit ((subRunsGo isUScoreOrSpace '-' false
      (replaceAmp l)).filter isKebabChar))).map Char.toLower) = l
  rw [replaceAmp_id l (fun c hc => kebabLower_not_amp c (hchars c hc))]
  rw [subRunsGo_id _ _ l (fun c hc => kebabLower_not_uspace c (hchars c hc)) false]
  rw [List.filter_eq_self.mpr (fun c hc => kebabLower_kebabChar c (hchars c hc))]
  rw [camelSplit_id l (fun c hc => kebabLower_not_upper c (hchars c hc))]
  rw [subRunsGo_dash_id l hchain]
  rw [map_toLower_fix l hchars]
  exact pyStrip_id l (fun x hx => hhead x hx) (fun x hx => hlast x hx)

/-- C10: `to_kebab_case` is idempotent, because its output contains only
lowercase ASCII letters, digits and non-consecutive hyphens, with no
leading or trailing hyphen. -/
theorem to_kebab_case_idempotent (s : List Char) :
    to_kebab_case (to_kebab_case s) = to_kebab_case s ∧
    (∀ c ∈ to_kebab_case s, isKebabLower c = true) ∧
    (∀ x, (to_kebab_case s).head? = some x → x ≠ '-') ∧
    (∀ x, (to_kebab_case s).getLast? = some x → x ≠ '-') ∧
    List.Chain' (fun a b => ¬(a = '-' ∧ b = '-')) (to_kebab_case s) := by
  obtain ⟨h1, h2, h3, h4⟩ := to_kebab_good s
  exact ⟨kebab_fixed _ (to_kebab_good s), h1, h2, h3, h4⟩
